import Mathlib

/-!
Verification of the relational-algebra core of the RelationalGPT repository.

The embedding models:
  * `src/relational/dsl.py` (identical code in `src/relational/conditions.py`):
    the five operators `restrict`, `join`, `project`, `extend`, `summarize`
    and the assertion primitive `ensure`;
  * `src/relational_gpt/framework.py`: `RelationalGPTFramework.validate_constraints`.

A Python scalar value is an integer, string, boolean or `None` (the spec's
`null`).  Python equality identifies `True` with `1` and `False` with `0`
(bool is a subclass of int); `Value.pyEq` reproduces this.  A Python dict is
modelled as an association list in insertion order with unique keys;
assignment to an existing key keeps its position, assignment to a fresh key
appends (`Record.insert`), matching CPython dict semantics.
-/

namespace RelationalGPT

/-- A scalar field value: integer, string, boolean or null (Python `None`). -/
inductive Value where
  | int (n : Int)
  | str (s : String)
  | bool (b : Bool)
  | null
deriving DecidableEq, Repr

/-- Python `==` on scalar values: `True == 1` and `False == 0` (bool is an
int subclass); `None` equals only `None`; no other cross-type equalities. -/
def Value.pyEq : Value → Value → Bool
  | .int m, .int n => m == n
  | .str s, .str t => s == t
  | .bool a, .bool b => a == b
  | .null, .null => true
  | .int m, .bool b => m == (if b then (1 : Int) else 0)
  | .bool b, .int n => (if b then (1 : Int) else 0) == n
  | _, _ => false

/-- A record (Python dict): field names to values, in insertion order. -/
abbrev Record := List (String × Value)

/-- Python `row.keys()`: the field names in insertion order. -/
def Record.keys (r : Record) : List String :=
  r.map Prod.fst

/-- Dict lookup: the value stored under `k`, if present. -/
def Record.get? (r : Record) (k : String) : Option Value :=
  (List.find? (fun p => p.1 == k) r).map Prod.snd

/-- Python `row.get(k)`: the stored value, or `None` (null) when absent. -/
def Record.getV (r : Record) (k : String) : Value :=
  (Record.get? r k).getD Value.null

/-- Python dict assignment `r[k] = v`: overwrite in place if `k` is present,
append `(k, v)` otherwise. -/
def Record.insert : Record → String → Value → Record
  | [], k, v => [(k, v)]
  | (k', v') :: rest, k, v =>
      if k' == k then (k', v) :: rest
      else (k', v') :: Record.insert rest k v

/-- Python `r1.copy(); r1.update(r2)`: assign every field of `r2` into a copy
of `r1`, in `r2`'s order (`r2` wins on a name collision). -/
def Record.update (r1 r2 : Record) : Record :=
  r2.foldl (fun acc p => Record.insert acc p.1 p.2) r1

/-- A relation: an ordered list of records. -/
abbrev Relation := List Record

/-- Model of `restrict(rel, predicate)` from src/relational/dsl.py: keep the rows
satisfying the predicate, in order. -/
def restrict (rel : Relation) (predicate : Record → Bool) : Relation :=
  List.filter predicate rel

/-- The matching rows of `rel2` for `row1`, each combined as
`row1.copy(); combined.update(row2)` — the body of the inner loop of `join`. -/
def joinRows (commonKeys : List String) (row1 : Record) (rel2 : Relation) : List Record :=
  (rel2.filter fun row2 =>
      commonKeys.all fun k => Value.pyEq (Record.getV row1 k) (Record.getV row2 k)).map
    fun row2 => Record.update row1 row2

/-- The outer loop of `join`: rows of `rel1` in order, each paired with its
matches in `rel2`. -/
def joinAux (commonKeys : List String) : Relation → Relation → Relation
  | [], _ => []
  | row1 :: rest, rel2 => joinRows commonKeys row1 rel2 ++ joinAux commonKeys rest rel2

/-- Model of `join(rel1, rel2)` from src/relational/dsl.py: empty if either input is
empty; otherwise a nested loop over all pairs, matching on the keys common to
the two first records (`row1.get(k) == row2.get(k)` for all such `k`). -/
def join : Relation → Relation → Relation
  | [], _ => []
  | _ :: _, [] => []
  | rel1@(row1 :: _), rel2@(row2 :: _) =>
      joinAux ((Record.keys row1).filter fun k => (Record.keys row2).contains k) rel1 rel2

/-- Model of `project(rel, *fields)` from src/relational/dsl.py: the dict comprehension
`{field: row.get(field) for field in fields}` applied to each row. -/
def project (rel : Relation) (fields : List String) : Relation :=
  rel.map fun row =>
    fields.foldl (fun acc f => Record.insert acc f (Record.getV row f)) ([] : Record)

/-- Model of `extend(rel, new_field, func)` from src/relational/dsl.py:
`dict(row, **{new_field: func(row)})` for each row. -/
def extend (rel : Relation) (newField : String) (func : Record → Value) : Relation :=
  rel.map fun row => Record.insert row newField (func row)

/-- The grouping key of a row: `tuple(row.get(field) for field in group_fields)`. -/
def keyOf (groupFields : List String) (row : Record) : List Value :=
  groupFields.map (Record.getV row)

/-- Python tuple equality on grouping keys: componentwise `==`. -/
def listPyEq : List Value → List Value → Bool
  | [], [] => true
  | a :: as_, b :: bs => Value.pyEq a b && listPyEq as_ bs
  | _, _ => false

/-- Model of `groups.setdefault(key, []).append(row)`: append `row` to the first group
whose key equals `key` under Python `==`, or open a new group at the end. -/
def addToGroups (groups : List (List Value × List Record)) (key : List Value)
    (row : Record) : List (List Value × List Record) :=
  match groups with
  | [] => [(key, [row])]
  | (k, rows) :: rest =>
      if listPyEq k key then (k, rows ++ [row]) :: rest
      else (k, rows) :: addToGroups rest key row

/-- The `groups` dict of `summarize` after the first loop, in insertion
(first-seen) order. -/
def groupsOf (groupFields : List String) (rel : Relation) :
    List (List Value × List Record) :=
  rel.foldl (fun gs row => addToGroups gs (keyOf groupFields row) row) []

/-- One output record of `summarize`: the group-field/key-value dict
comprehension, then one assignment per aggregate. -/
def mkSummary (groupFields : List String)
    (aggregates : List (String × (List Record → Value)))
    (key : List Value) (rows : List Record) : Record :=
  let summary := (groupFields.zip key).foldl
    (fun acc p => Record.insert acc p.1 p.2) ([] : Record)
  aggregates.foldl (fun acc p => Record.insert acc p.1 (p.2 rows)) summary

/-- Model of `summarize(rel, group_fields, aggregates)` from src/relational/dsl.py.
The `aggregates` dict is modelled as an association list in insertion order
with distinct names. -/
def summarize (rel : Relation) (groupFields : List String)
    (aggregates : List (String × (List Record → Value))) : Relation :=
  (groupsOf groupFields rel).map fun g => mkSummary groupFields aggregates g.1 g.2

/-- Model of `ensure(description, condition)` from src/relational/dsl.py: raise an
`AssertionError` carrying the description when the condition is false
(modelled as `Except.error` with the exception message), otherwise print a
success line (modelled as `Except.ok` with the printed text). -/
def ensure (description : String) (condition : Bool) : Except String String :=
  if !condition then Except.error ("Constraint failed: " ++ description)
  else Except.ok ("Constraint passed: " ++ description)

/-- Model of `RelationalGPTFramework.validate_constraints` from
src/relational_gpt/framework.py: fold over the registered
`(description, condition)` pairs; a condition is a thunk that either returns
a boolean or raises (modelled as `Except String Bool`, the error holding
`str(e)`); failures and evaluation errors are appended to `errors` and the
loop continues. -/
def validate_constraints (constraints : List (String × Except String Bool)) :
    List String :=
  constraints.foldl
    (fun errors c =>
      match c.2 with
      | Except.ok b =>
          if !b then errors ++ ["Constraint failed: " ++ c.1] else errors
      | Except.error e =>
          errors ++ ["Error validating constraint '" ++ c.1 ++ "': " ++ e])
    []

/-- Normalisation of a value under Python equality: a boolean is an int
subclass, `True` is `1` and `False` is `0`.  Two values are Python-equal iff
their normal forms coincide. -/
def Value.norm : Value → Value
  | .bool b => .int (if b then 1 else 0)
  | v => v

/-- Generic fold of dict assignments `acc[key x] = val x` over a list, the
shape shared by `Record.update`, `project` and `mkSummary`. -/
def foldIns {α : Type} (key : α → String) (val : α → Value) (r : Record)
    (L : List α) : Record :=
  L.foldl (fun acc x => Record.insert acc (key x) (val x)) r

/-- The effect of one dict assignment on the key list: an existing key keeps
its position, a fresh key is appended. -/
def insKey (ks : List String) (k : String) : List String :=
  if ks.contains k then ks else ks ++ [k]

/-- Modelled from the spec (§4.1 summarize contract): the distinct
grouping-key tuples of the relation, in first-seen order. -/
def seenKeys (groupFields : List String) (rel : Relation) : List (List Value) :=
  rel.foldl
    (fun ks row =>
      if ks.any (fun k => listPyEq k (keyOf groupFields row)) then ks
      else ks ++ [keyOf groupFields row])
    []

/-- Modelled from the spec (§4.1 join contract): the nested-loop natural-join
reference definition.  If either input is empty the result is empty; otherwise
the common-key set is the intersection of the field names of the two first
records, a pair matches iff the two rows are Python-equal on every common key
(missing fields read as null), and a matching pair contributes rowA's fields
overlaid by rowB's fields, in nested-loop order. -/
def joinSpec (relA relB : Relation) : Relation :=
  match relA, relB with
  | [], _ => []
  | _, [] => []
  | a :: _, b :: _ =>
      let common := (Record.keys a).inter (Record.keys b)
      relA.flatMap fun rowA =>
        (relB.filter fun rowB =>
            common.all fun k => Value.pyEq (Record.getV rowA k) (Record.getV rowB k)).map
          fun rowB => Record.update rowA rowB

/-- Modelled from the spec (§4.2/§7 collect-all contract): the violation
message one registered constraint contributes — nothing when it passes,
"Constraint failed: <description>" when its condition is false, and
"Error validating constraint '<description>': <message>" when its evaluation
raises. -/
def messageOf (c : String × Except String Bool) : Option String :=
  match c.2 with
  | Except.ok true => none
  | Except.ok false => some ("Constraint failed: " ++ c.1)
  | Except.error e => some ("Error validating constraint '" ++ c.1 ++ "': " ++ e)

/-! ### Python equality -/

theorem Value.pyEq_iff_norm (a b : Value) :
    Value.pyEq a b = true ↔ Value.norm a = Value.norm b := by
  cases a <;> cases b <;> simp [Value.pyEq, Value.norm] <;>
    try (rename_i x y; cases x <;> cases y <;> simp)

theorem Value.pyEq_refl (a : Value) : Value.pyEq a a = true :=
  (Value.pyEq_iff_norm a a).mpr rfl

theorem Value.pyEq_symm {a b : Value} (h : Value.pyEq a b = true) :
    Value.pyEq b a = true :=
  (Value.pyEq_iff_norm b a).mpr ((Value.pyEq_iff_norm a b).mp h).symm

theorem Value.pyEq_trans {a b c : Value} (h1 : Value.pyEq a b = true)
    (h2 : Value.pyEq b c = true) : Value.pyEq a c = true :=
  (Value.pyEq_iff_norm a c).mpr
    (((Value.pyEq_iff_norm a b).mp h1).trans ((Value.pyEq_iff_norm b c).mp h2))

theorem listPyEq_iff_norm (xs ys : List Value) :
    listPyEq xs ys = true ↔ xs.map Value.norm = ys.map Value.norm := by
  induction xs generalizing ys with
  | nil => cases ys <;> simp [listPyEq]
  | cons a xs ih =>
      cases ys with
      | nil => simp [listPyEq]
      | cons b ys => simp [listPyEq, Value.pyEq_iff_norm, ih]

theorem listPyEq_refl (xs : List Value) : listPyEq xs xs = true :=
  (listPyEq_iff_norm xs xs).mpr rfl

theorem listPyEq_symm {xs ys : List Value} (h : listPyEq xs ys = true) :
    listPyEq ys xs = true :=
  (listPyEq_iff_norm ys xs).mpr ((listPyEq_iff_norm xs ys).mp h).symm

theorem listPyEq_trans {xs ys zs : List Value} (h1 : listPyEq xs ys = true)
    (h2 : listPyEq ys zs = true) : listPyEq xs zs = true :=
  (listPyEq_iff_norm xs zs).mpr
    (((listPyEq_iff_norm xs ys).mp h1).trans ((listPyEq_iff_norm ys zs).mp h2))

/-! ### Dict assignment and lookup -/

theorem Record.get?_cons (k0 : String) (v0 : Value) (rest : Record) (k : String) :
    Record.get? ((k0, v0) :: rest) k =
      if k0 = k then some v0 else Record.get? rest k := by
  by_cases h : k0 = k <;> simp [Record.get?, List.find?_cons, h]

theorem Record.insert_cons (k0 : String) (v0 : Value) (rest : Record)
    (k : String) (v : Value) :
    Record.insert ((k0, v0) :: rest) k v =
      if k0 = k then (k0, v) :: rest else (k0, v0) :: Record.insert rest k v := by
  by_cases h : k0 = k <;> simp [Record.insert, h]

theorem Record.get?_insert_self (r : Record) (k : String) (v : Value) :
    Record.get? (Record.insert r k v) k = some v := by
  induction r with
  | nil => simp [Record.insert, Record.get?_cons]
  | cons p rest ih =>
      obtain ⟨k0, v0⟩ := p
      rw [Record.insert_cons]
      by_cases h : k0 = k
      · simp [h, Record.get?_cons]
      · simp [h, Record.get?_cons, ih]

theorem Record.get?_insert_ne (r : Record) (k : String) (v : Value)
    (k' : String) (h : k' ≠ k) :
    Record.get? (Record.insert r k v) k' = Record.get? r k' := by
  induction r with
  | nil =>
      have hne : k ≠ k' := fun h' => h h'.symm
      simp [Record.insert, Record.get?_cons, Record.get?, hne]
  | cons p rest ih =>
      obtain ⟨k0, v0⟩ := p
      rw [Record.insert_cons]
      by_cases h0 : k0 = k
      · have hne : ¬k0 = k' := fun h' => h (h'.symm.trans h0)
        simp [if_pos h0, Record.get?_cons, hne]
      · by_cases h1 : k0 = k'
        · simp [h0, h1, Record.get?_cons, h]
        · simp [h0, h1, Record.get?_cons, ih]

theorem Record.getV_insert_self (r : Record) (k : String) (v : Value) :
    Record.getV (Record.insert r k v) k = v := by
  simp [Record.getV, Record.get?_insert_self]

theorem Record.getV_insert_ne (r : Record) (k : String) (v : Value)
    (k' : String) (h : k' ≠ k) :
    Record.getV (Record.insert r k v) k' = Record.getV r k' := by
  simp [Record.getV, Record.get?_insert_ne r k v k' h]

theorem Record.get?_eq_none_of_not_mem (r : Record) (k : String)
    (h : k ∉ Record.keys r) : Record.get? r k = none := by
  induction r with
  | nil => rfl
  | cons p rest ih =>
      obtain ⟨k0, v0⟩ := p
      have h' : ¬(k = k0 ∨ k ∈ Record.keys rest) := by
        simpa [Record.keys, List.mem_cons] using h
      push_neg at h'
      rw [Record.get?_cons, if_neg (fun e => h'.1 e.symm)]
      exact ih h'.2

theorem Record.getV_eq_null_of_not_mem (r : Record) (k : String)
    (h : k ∉ Record.keys r) : Record.getV r k = Value.null := by
  simp [Record.getV, Record.get?_eq_none_of_not_mem r k h]

theorem Record.keys_insert (r : Record) (k : String) (v : Value) :
    Record.keys (Record.insert r k v) = insKey (Record.keys r) k := by
  induction r with
  | nil => simp [Record.insert, Record.keys, insKey]
  | cons p rest ih =>
      obtain ⟨k0, v0⟩ := p
      rw [Record.insert_cons]
      by_cases h : k0 = k
      · subst h
        simp [Record.keys, insKey]
      · have hk : (k == k0) = false := by
          simp only [beq_eq_false_iff_ne]
          exact fun h' => h h'.symm
        rw [if_neg h]
        show k0 :: Record.keys (Record.insert rest k v)
          = insKey (Record.keys ((k0, v0) :: rest)) k
        rw [ih]
        show k0 :: insKey (Record.keys rest) k
          = insKey (k0 :: Record.keys rest) k
        simp only [insKey, List.contains_cons, hk, Bool.false_or]
        by_cases hc : k ∈ Record.keys rest <;> simp [hc]

theorem Record.length_insert (r : Record) (k : String) (v : Value) :
    (Record.insert r k v).length =
      if (Record.keys r).contains k then r.length else r.length + 1 := by
  induction r with
  | nil => simp [Record.insert, Record.keys]
  | cons p rest ih =>
      obtain ⟨k0, v0⟩ := p
      rw [Record.insert_cons]
      by_cases h : k0 = k
      · subst h
        simp [Record.keys]
      · have hk : (k == k0) = false := by
          simp only [beq_eq_false_iff_ne]
          exact fun h' => h h'.symm
        rw [if_neg h]
        show (Record.insert rest k v).length + 1
          = if (Record.keys ((k0, v0) :: rest)).contains k
              then rest.length + 1 else rest.length + 1 + 1
        rw [ih]
        show (if (Record.keys rest).contains k
              then rest.length else rest.length + 1) + 1
          = if (k0 :: Record.keys rest).contains k
              then rest.length + 1 else rest.length + 1 + 1
        simp only [List.contains_cons, hk, Bool.false_or]
        by_cases hc : k ∈ Record.keys rest <;> simp [hc]

theorem Record.length_insert_le (r : Record) (k : String) (v : Value) :
    (Record.insert r k v).length ≤ r.length + 1 := by
  rw [Record.length_insert]
  split <;> omega

theorem Record.length_insert_of_mem (r : Record) (k : String) (v : Value)
    (h : k ∈ Record.keys r) : (Record.insert r k v).length = r.length := by
  rw [Record.length_insert]
  simp [h]

theorem Record.mem_keys_insert_of_mem (r : Record) (k : String) (v : Value)
    (k' : String) (h : k' ∈ Record.keys r) :
    k' ∈ Record.keys (Record.insert r k v) := by
  rw [Record.keys_insert, insKey]
  split
  · exact h
  · exact List.mem_append_left _ h

theorem Record.mem_keys_insert_self (r : Record) (k : String) (v : Value) :
    k ∈ Record.keys (Record.insert r k v) := by
  rw [Record.keys_insert, insKey]
  split
  · next hc => simpa using hc
  · simp

/-! ### Folded dict assignments -/

section FoldIns

variable {α : Type} (key : α → String) (val : α → Value)

theorem foldIns_nil (r : Record) : foldIns key val r [] = r := rfl

theorem foldIns_cons (r : Record) (a : α) (L : List α) :
    foldIns key val r (a :: L) =
      foldIns key val (Record.insert r (key a) (val a)) L := rfl

theorem foldIns_append (r : Record) (L1 L2 : List α) :
    foldIns key val r (L1 ++ L2) = foldIns key val (foldIns key val r L1) L2 := by
  simp [foldIns, List.foldl_append]

theorem get?_foldIns_not_mem (L : List α) (r : Record) (k : String)
    (h : ∀ x ∈ L, key x ≠ k) :
    Record.get? (foldIns key val r L) k = Record.get? r k := by
  induction L generalizing r with
  | nil => rfl
  | cons a L ih =>
      rw [foldIns_cons, ih _ (fun x hx => h x (List.mem_cons_of_mem a hx)),
        Record.get?_insert_ne]
      exact fun e => h a (List.mem_cons_self a L) e.symm

theorem getV_foldIns_not_mem (L : List α) (r : Record) (k : String)
    (h : ∀ x ∈ L, key x ≠ k) :
    Record.getV (foldIns key val r L) k = Record.getV r k := by
  simp [Record.getV, get?_foldIns_not_mem key val L r k h]

theorem getV_foldIns_self (L : List α)
    (hfun : ∀ x ∈ L, ∀ y ∈ L, key x = key y → val x = val y)
    (r : Record) (x : α) (hx : x ∈ L) :
    Record.getV (foldIns key val r L) (key x) = val x := by
  induction L generalizing r x with
  | nil => cases hx
  | cons a L ih =>
      have hfun' : ∀ u ∈ L, ∀ w ∈ L, key u = key w → val u = val w :=
        fun u hu w hw e =>
          hfun u (List.mem_cons_of_mem a hu) w (List.mem_cons_of_mem a hw) e
      rw [foldIns_cons]
      rcases List.mem_cons.mp hx with hxa | hxL
      · subst hxa
        by_cases hk : ∃ y ∈ L, key y = key x
        · obtain ⟨y, hy, hky⟩ := hk
          have hval : val y = val x :=
            hfun y (List.mem_cons_of_mem x hy) x (List.mem_cons_self x L) hky
          have := ih hfun' (Record.insert r (key x) (val x)) y hy
          rw [hky, hval] at this
          exact this
        · push_neg at hk
          rw [getV_foldIns_not_mem key val L _ _ hk, Record.getV_insert_self]
      · exact ih hfun' _ x hxL

theorem length_foldIns_le (L : List α) (r : Record) :
    (foldIns key val r L).length ≤ r.length + L.length := by
  induction L generalizing r with
  | nil => simp [foldIns_nil]
  | cons a L ih =>
      rw [foldIns_cons]
      calc (foldIns key val (Record.insert r (key a) (val a)) L).length
          ≤ (Record.insert r (key a) (val a)).length + L.length := ih _
        _ ≤ r.length + 1 + L.length := by
            have := Record.length_insert_le r (key a) (val a)
            omega
        _ = r.length + (a :: L).length := by simp; omega

theorem mem_keys_foldIns_of_mem (L : List α) (r : Record) (k : String)
    (h : k ∈ Record.keys r) : k ∈ Record.keys (foldIns key val r L) := by
  induction L generalizing r with
  | nil => exact h
  | cons a L ih =>
      rw [foldIns_cons]
      exact ih _ (Record.mem_keys_insert_of_mem r (key a) (val a) k h)

theorem mem_keys_foldIns_self (L : List α) (r : Record) (x : α) (hx : x ∈ L) :
    key x ∈ Record.keys (foldIns key val r L) := by
  induction L generalizing r with
  | nil => cases hx
  | cons a L ih =>
      rw [foldIns_cons]
      rcases List.mem_cons.mp hx with hxa | hxL
      · subst hxa
        exact mem_keys_foldIns_of_mem key val L _ _
          (Record.mem_keys_insert_self r (key x) (val x))
      · exact ih _ hxL

theorem keys_foldIns (L : List α) (r : Record) :
    Record.keys (foldIns key val r L) =
      (L.map key).foldl insKey (Record.keys r) := by
  induction L generalizing r with
  | nil => rfl
  | cons a L ih =>
      rw [foldIns_cons, ih, List.map_cons, List.foldl_cons, Record.keys_insert]

end FoldIns

theorem foldl_insKey_of_disjoint (F : List String) (hF : F.Nodup) :
    ∀ ks : List String, (∀ f ∈ F, f ∉ ks) → F.foldl insKey ks = ks ++ F := by
  induction F with
  | nil => intro ks _; simp
  | cons f F ih =>
      intro ks hdisj
      have hf : f ∉ ks := hdisj f (List.mem_cons_self f F)
      rw [List.foldl_cons,
        show insKey ks f = ks ++ [f] from by simp [insKey, hf],
        ih (List.Nodup.of_cons hF) (ks ++ [f]) ?_]
      · simp
      · intro g hg
        simp only [List.mem_append, List.mem_singleton]
        rintro (hgks | hgf)
        · exact hdisj g (List.mem_cons_of_mem f hg) hgks
        · exact (List.nodup_cons.mp hF).1 (hgf ▸ hg)

/-! ### restrict -/

/-- C7: restrict is a pure, order-preserving filter: for every relation R and
predicate P, restrict(R, P) is a subsequence of R preserving relative order,
every record of the result satisfies P, every record of R satisfying P appears
in the result, restrict(R, lambda _: True) == R and
restrict(R, lambda _: False) == []. -/
theorem restrict_correct (R : Relation) (P : Record → Bool) :
    List.Sublist (restrict R P) R
    ∧ (∀ r ∈ restrict R P, P r = true)
    ∧ (∀ r ∈ R, P r = true → r ∈ restrict R P)
    ∧ restrict R (fun _ => true) = R
    ∧ restrict R (fun _ => false) = [] := by
  refine ⟨List.filter_sublist R, ?_, ?_, ?_, ?_⟩
  · exact fun r hr => (List.mem_filter.mp hr).2
  · exact fun r hr hP => List.mem_filter.mpr ⟨hr, hP⟩
  · simp [restrict]
  · simp [restrict]

/-- Witness for C7 at a concrete relation and predicate. -/
theorem restrict_correct_witness :
    List.Sublist
        (restrict [[("a", Value.int 1)], [("a", Value.int 2)]]
          (fun r => Value.pyEq (Record.getV r "a") (Value.int 2)))
        [[("a", Value.int 1)], [("a", Value.int 2)]]
    ∧ (∀ r ∈ restrict [[("a", Value.int 1)], [("a", Value.int 2)]]
          (fun r => Value.pyEq (Record.getV r "a") (Value.int 2)),
        Value.pyEq (Record.getV r "a") (Value.int 2) = true)
    ∧ (∀ r ∈ ([[("a", Value.int 1)], [("a", Value.int 2)]] : Relation),
        Value.pyEq (Record.getV r "a") (Value.int 2) = true →
          r ∈ restrict [[("a", Value.int 1)], [("a", Value.int 2)]]
            (fun r => Value.pyEq (Record.getV r "a") (Value.int 2)))
    ∧ restrict [[("a", Value.int 1)], [("a", Value.int 2)]] (fun _ => true)
        = [[("a", Value.int 1)], [("a", Value.int 2)]]
    ∧ restrict [[("a", Value.int 1)], [("a", Value.int 2)]] (fun _ => false) = [] :=
  restrict_correct [[("a", Value.int 1)], [("a", Value.int 2)]]
    (fun r => Value.pyEq (Record.getV r "a") (Value.int 2))

/-- C9: restrict is idempotent: filtering twice with the same pure predicate
equals filtering once. -/
theorem restrict_idempotent (R : Relation) (P : Record → Bool) :
    restrict (restrict R P) P = restrict R P := by
  simp [restrict, List.filter_filter]

/-! ### ensure -/

/-- C4: ensure raises iff the condition is false: on True it reports success
(the printed pass line), on False it signals a constraint violation whose
message carries the description. -/
theorem ensure_correct (d : String) :
    ensure d true = Except.ok ("Constraint passed: " ++ d)
    ∧ ensure d false = Except.error ("Constraint failed: " ++ d) :=
  ⟨rfl, rfl⟩

/-! ### validate_constraints -/

theorem validate_constraints_foldl (cs : List (String × Except String Bool)) :
    ∀ acc : List String,
      cs.foldl
        (fun errors c =>
          match c.2 with
          | Except.ok b =>
              if !b then errors ++ ["Constraint failed: " ++ c.1] else errors
          | Except.error e =>
              errors ++ ["Error validating constraint '" ++ c.1 ++ "': " ++ e])
        acc
      = acc ++ cs.filterMap messageOf := by
  induction cs with
  | nil => simp
  | cons c cs ih =>
      intro acc
      obtain ⟨d, cond⟩ := c
      rw [List.foldl_cons, ih]
      cases cond with
      | ok b => cases b <;> simp [messageOf, List.filterMap_cons]
      | error e => simp [messageOf, List.filterMap_cons]

theorem messageOf_eq_none_iff (c : String × Except String Bool) :
    messageOf c = none ↔ c.2 = Except.ok true := by
  obtain ⟨d, cond⟩ := c
  cases cond with
  | ok b => cases b <;> simp [messageOf]
  | error e => simp [messageOf]

/-- C5: the collect-all evaluator processes every registered constraint in
order without stopping: each constraint contributes its violation message
(failed condition or evaluation error) or nothing, and the returned list is
empty iff every constraint passes. -/
theorem validate_constraints_correct (cs : List (String × Except String Bool)) :
    validate_constraints cs = cs.filterMap messageOf
    ∧ (validate_constraints cs = [] ↔ ∀ c ∈ cs, c.2 = Except.ok true) := by
  have h : validate_constraints cs = cs.filterMap messageOf := by
    simpa [validate_constraints] using validate_constraints_foldl cs []
  refine ⟨h, ?_⟩
  rw [h, List.filterMap_eq_nil]
  constructor
  · exact fun hall c hc => (messageOf_eq_none_iff c).mp (hall c hc)
  · exact fun hall c hc => (messageOf_eq_none_iff c).mpr (hall c hc)

/-! ### extend -/

/-- C8: extend returns one record per input record, equal to the source record
plus the field x valued f(original record): the value under x is f(row), every
other field is unchanged, a fresh x adds exactly one field, and an existing x
is overwritten in place (same length, same key list). -/
theorem extend_correct (R : Relation) (x : String) (f : Record → Value) :
    (extend R x f).length = R.length
    ∧ ∀ i (hi : i < R.length) (hi2 : i < (extend R x f).length),
        Record.getV (extend R x f)[i] x = f R[i]
        ∧ (∀ k, k ≠ x → Record.getV (extend R x f)[i] k = Record.getV R[i] k)
        ∧ (x ∉ Record.keys R[i] →
            ((extend R x f)[i]).length = (R[i]).length + 1)
        ∧ (x ∈ Record.keys R[i] →
            ((extend R x f)[i]).length = (R[i]).length
            ∧ Record.keys (extend R x f)[i] = Record.keys R[i]) := by
  refine ⟨by simp [extend], ?_⟩
  intro i hi hi2
  have he : (extend R x f)[i] = Record.insert R[i] x (f R[i]) := by
    simp [extend]
  rw [he]
  refine ⟨Record.getV_insert_self _ x _, ?_, ?_, ?_⟩
  · exact fun k hk => Record.getV_insert_ne _ x _ k hk
  · intro hx
    rw [Record.length_insert]
    simp [hx]
  · intro hx
    refine ⟨Record.length_insert_of_mem _ x _ hx, ?_⟩
    rw [Record.keys_insert, insKey]
    simp [hx]

/-- Witness for C8 at a concrete relation: one record where x is fresh and one
where it already exists. -/
theorem extend_correct_witness :
    (extend [[("y", Value.int 2)], [("x", Value.int 1), ("y", Value.int 5)]] "x"
        (fun r => Record.getV r "y")).length
      = ([[("y", Value.int 2)], [("x", Value.int 1), ("y", Value.int 5)]] : Relation).length
    ∧ ∀ i (hi : i < ([[("y", Value.int 2)],
          [("x", Value.int 1), ("y", Value.int 5)]] : Relation).length)
        (hi2 : i < (extend [[("y", Value.int 2)],
          [("x", Value.int 1), ("y", Value.int 5)]] "x" (fun r => Record.getV r "y")).length),
        Record.getV (extend [[("y", Value.int 2)],
            [("x", Value.int 1), ("y", Value.int 5)]] "x" (fun r => Record.getV r "y"))[i] "x"
          = Record.getV ([[("y", Value.int 2)],
            [("x", Value.int 1), ("y", Value.int 5)]] : Relation)[i] "y"
        ∧ (∀ k, k ≠ "x" →
            Record.getV (extend [[("y", Value.int 2)],
              [("x", Value.int 1), ("y", Value.int 5)]] "x" (fun r => Record.getV r "y"))[i] k
            = Record.getV ([[("y", Value.int 2)],
              [("x", Value.int 1), ("y", Value.int 5)]] : Relation)[i] k)
        ∧ ("x" ∉ Record.keys ([[("y", Value.int 2)],
              [("x", Value.int 1), ("y", Value.int 5)]] : Relation)[i] →
            ((extend [[("y", Value.int 2)],
              [("x", Value.int 1), ("y", Value.int 5)]] "x" (fun r => Record.getV r "y"))[i]).length
            = (([[("y", Value.int 2)],
              [("x", Value.int 1), ("y", Value.int 5)]] : Relation)[i]).length + 1)
        ∧ ("x" ∈ Record.keys ([[("y", Value.int 2)],
              [("x", Value.int 1), ("y", Value.int 5)]] : Relation)[i] →
            ((extend [[("y", Value.int 2)],
              [("x", Value.int 1), ("y", Value.int 5)]] "x" (fun r => Record.getV r "y"))[i]).length
            = (([[("y", Value.int 2)],
              [("x", Value.int 1), ("y", Value.int 5)]] : Relation)[i]).length
            ∧ Record.keys (extend [[("y", Value.int 2)],
              [("x", Value.int 1), ("y", Value.int 5)]] "x" (fun r => Record.getV r "y"))[i]
            = Record.keys ([[("y", Value.int 2)],
              [("x", Value.int 1), ("y", Value.int 5)]] : Relation)[i]) :=
  extend_correct [[("y", Value.int 2)], [("x", Value.int 1), ("y", Value.int 5)]] "x"
    (fun r => Record.getV r "y")

/-! ### join -/

theorem joinAux_eq_flatMap (ck : List String) (L rel2 : Relation) :
    joinAux ck L rel2 = L.flatMap (fun row1 => joinRows ck row1 rel2) := by
  induction L with
  | nil => rfl
  | cons r L ih => simp [joinAux, ih]

theorem length_joinRows_le (ck : List String) (row1 : Record) (rel2 : Relation) :
    (joinRows ck row1 rel2).length ≤ rel2.length := by
  simp only [joinRows, List.length_map]
  exact List.length_filter_le _ _

theorem length_joinAux_le (ck : List String) (L rel2 : Relation) :
    (joinAux ck L rel2).length ≤ L.length * rel2.length := by
  induction L with
  | nil => simp [joinAux]
  | cons r L ih =>
      rw [joinAux, List.length_append, List.length_cons, Nat.succ_mul]
      calc (joinRows ck r rel2).length + (joinAux ck L rel2).length
          ≤ rel2.length + L.length * rel2.length :=
            Nat.add_le_add (length_joinRows_le ck r rel2) ih
        _ = L.length * rel2.length + rel2.length := Nat.add_comm _ _

theorem filter_contains_eq_inter (l1 l2 : List String) :
    l1.filter (fun k => l2.contains k) = l1.inter l2 := by
  apply List.filter_congr
  intro a _
  simp [List.inter]

theorem join_eq_joinSpec (R1 R2 : Relation) : join R1 R2 = joinSpec R1 R2 := by
  match R1, R2 with
  | [], _ => simp [join, joinSpec]
  | _ :: _, [] => simp [join, joinSpec]
  | r1 :: t1, r2 :: t2 =>
      show joinAux ((Record.keys r1).filter fun k => (Record.keys r2).contains k)
          (r1 :: t1) (r2 :: t2) = _
      rw [joinAux_eq_flatMap, filter_contains_eq_inter]
      rfl

theorem join_length_le (R1 R2 : Relation) :
    (join R1 R2).length ≤ R1.length * R2.length := by
  match R1, R2 with
  | [], _ => simp [join]
  | _ :: _, [] => simp [join]
  | r1 :: t1, r2 :: t2 =>
      exact length_joinAux_le _ (r1 :: t1) (r2 :: t2)

/-- C2: join equals the nested-loop natural-join reference definition from the
spec (empty input gives [], common keys from the two first records, a pair
matches iff Python-equal on every common key with missing fields read as null,
output is rowA overlaid by rowB in nested-loop order), and consequently
len(join(R1, R2)) <= len(R1) * len(R2). -/
theorem join_matches_reference (R1 R2 : Relation) :
    join R1 R2 = joinSpec R1 R2
    ∧ (join R1 R2).length ≤ R1.length * R2.length :=
  ⟨join_eq_joinSpec R1 R2, join_length_le R1 R2⟩

/-- Counterexample to C1: joining two one-record relations with disjoint field
names produces the combined record (the cross product), not []. -/
theorem join_no_common_fields_cex :
    join [[("a", Value.int 1)]] [[("b", Value.int 2)]]
      = [[("a", Value.int 1), ("b", Value.int 2)]]
    ∧ join [[("a", Value.int 1)]] [[("b", Value.int 2)]] ≠ ([] : Relation) := by
  decide

theorem joinRows_nil_common (row1 : Record) (rel2 : Relation) :
    joinRows [] row1 rel2 = rel2.map (fun row2 => Record.update row1 row2) := by
  simp [joinRows]

theorem length_crossProduct (R1 R2 : Relation) :
    (R1.flatMap (fun rowA => R2.map (fun rowB => Record.update rowA rowB))).length
      = R1.length * R2.length := by
  induction R1 with
  | nil => simp
  | cons r R1 ih => simp [ih, Nat.succ_mul, Nat.add_comm]

/-- C1 (amended): joining two non-empty relations with no common field names
(the intersection of the field names of their first records is empty) raises
nothing and degrades to the full cross product — every pair matches, so the
result has length len(R1) * len(R2) rather than being []. -/
theorem join_no_common_fields_cross (R1 R2 : Relation)
    (h1 : R1 ≠ []) (h2 : R2 ≠ [])
    (hdisj : (Record.keys (R1.headD [])).filter
        (fun k => (Record.keys (R2.headD [])).contains k) = []) :
    join R1 R2
      = R1.flatMap (fun rowA => R2.map (fun rowB => Record.update rowA rowB))
    ∧ (join R1 R2).length = R1.length * R2.length := by
  obtain ⟨r1, t1, rfl⟩ := List.exists_cons_of_ne_nil h1
  obtain ⟨r2, t2, rfl⟩ := List.exists_cons_of_ne_nil h2
  have hck : (Record.keys r1).filter (fun k => (Record.keys r2).contains k)
      = [] := by simpa using hdisj
  have hjoin : join (r1 :: t1) (r2 :: t2)
      = (r1 :: t1).flatMap
          (fun rowA => (r2 :: t2).map (fun rowB => Record.update rowA rowB)) := by
    show joinAux ((Record.keys r1).filter fun k => (Record.keys r2).contains k)
        (r1 :: t1) (r2 :: t2) = _
    rw [hck, joinAux_eq_flatMap]
    simp only [joinRows_nil_common]
  refine ⟨hjoin, ?_⟩
  rw [hjoin, length_crossProduct]

/-- Witness for C1 (amended) at concrete disjoint-field relations. -/
theorem join_no_common_fields_cross_witness :
    join [[("x", Value.str "p")], [("x", Value.str "q")]] [[("y", Value.int 7)]]
      = ([[("x", Value.str "p")], [("x", Value.str "q")]] : Relation).flatMap
          (fun rowA => ([[("y", Value.int 7)]] : Relation).map
            (fun rowB => Record.update rowA rowB))
    ∧ (join [[("x", Value.str "p")], [("x", Value.str "q")]]
        [[("y", Value.int 7)]]).length
      = ([[("x", Value.str "p")], [("x", Value.str "q")]] : Relation).length
        * ([[("y", Value.int 7)]] : Relation).length :=
  join_no_common_fields_cross
    [[("x", Value.str "p")], [("x", Value.str "q")]] [[("y", Value.int 7)]]
    (by decide) (by decide) (by decide)

/-! ### project -/

theorem mem_zip_map_self {α β : Type} (l : List α) (g : α → β)
    (p : α × β) (hp : p ∈ l.zip (l.map g)) : p.2 = g p.1 ∧ p.1 ∈ l := by
  have hz : l.zip (l.map g) = l.map (fun a => (a, g a)) := by
    have := List.zip_map' id g l
    simpa using this
  rw [hz] at hp
  obtain ⟨a, ha, rfl⟩ := List.mem_map.mp hp
  exact ⟨rfl, ha⟩

theorem project_row_eq (row : Record) (F : List String) :
    F.foldl (fun acc f => Record.insert acc f (Record.getV row f)) ([] : Record)
      = foldIns (fun f => f) (fun f => Record.getV row f) [] F := rfl

/-- Counterexample to C6: with the duplicated field list ["a", "a"], the
single output record holds the field "a" once, so its fields are not
"exactly the fields in F in the order requested". -/
theorem project_dup_field_cex :
    (project [([] : Record)] ["a", "a"]).map Record.keys ≠ [["a", "a"]]
    ∧ (project [([] : Record)] ["a", "a"]).map Record.keys = [["a"]] := by
  decide

/-- C6 (amended): for every relation R and every duplicate-free field list F,
project(R, *F) has exactly len(R) records, every output record has exactly the
fields in F in the order requested, a field absent from a source record yields
null for that record, and no duplicate elimination is performed (two equal
input records yield two equal output records).  (With duplicated names in F
the output record holds each requested name once, at its first position.) -/
theorem project_field_mask (R : Relation) (F : List String) (hF : F.Nodup) :
    (project R F).length = R.length
    ∧ (∀ p ∈ R.zip (project R F),
        Record.keys p.2 = F
        ∧ (∀ f ∈ F, Record.getV p.2 f = Record.getV p.1 f)
        ∧ (∀ f ∈ F, f ∉ Record.keys p.1 → Record.getV p.2 f = Value.null))
    ∧ ∀ i j (hi : i < R.length) (hj : j < R.length)
        (hi2 : i < (project R F).length) (hj2 : j < (project R F).length),
        R[i] = R[j] → (project R F)[i] = (project R F)[j] := by
  refine ⟨by simp [project], ?_, ?_⟩
  · intro p hp
    obtain ⟨hval, hmem⟩ := mem_zip_map_self R _ p hp
    rw [hval, project_row_eq]
    refine ⟨?_, ?_, ?_⟩
    · rw [keys_foldIns]
      have : F.map (fun f => f) = F := List.map_id' F
      rw [this, show Record.keys ([] : Record) = ([] : List String) from rfl,
        foldl_insKey_of_disjoint F hF [] (by simp)]
      simp
    · intro f hf
      exact getV_foldIns_self (fun f => f) (fun f => Record.getV p.1 f) F
        (fun x _ y _ e => by simp only at e; rw [e]) [] f hf
    · intro f hf hnot
      rw [getV_foldIns_self (fun f => f) (fun f => Record.getV p.1 f) F
        (fun x _ y _ e => by simp only at e; rw [e]) [] f hf]
      exact Record.getV_eq_null_of_not_mem p.1 f hnot
  · intro i j hi hj hi2 hj2 heq
    have e1 : (project R F)[i]
        = F.foldl (fun acc f => Record.insert acc f (Record.getV R[i] f))
            ([] : Record) := by
      simp [project]
    have e2 : (project R F)[j]
        = F.foldl (fun acc f => Record.insert acc f (Record.getV R[j] f))
            ([] : Record) := by
      simp [project]
    rw [e1, e2, heq]

/-- Witness for C6 at a concrete relation and duplicate-free field list. -/
theorem project_field_mask_witness :
    (project [[("b", Value.int 1), ("a", Value.int 2)]] ["a", "z"]).length
      = ([[("b", Value.int 1), ("a", Value.int 2)]] : Relation).length
    ∧ (∀ p ∈ ([[("b", Value.int 1), ("a", Value.int 2)]] : Relation).zip
          (project [[("b", Value.int 1), ("a", Value.int 2)]] ["a", "z"]),
        Record.keys p.2 = ["a", "z"]
        ∧ (∀ f ∈ ["a", "z"], Record.getV p.2 f = Record.getV p.1 f)
        ∧ (∀ f ∈ ["a", "z"], f ∉ Record.keys p.1 →
            Record.getV p.2 f = Value.null))
    ∧ ∀ i j (hi : i < ([[("b", Value.int 1), ("a", Value.int 2)]] : Relation).length)
        (hj : j < ([[("b", Value.int 1), ("a", Value.int 2)]] : Relation).length)
        (hi2 : i < (project [[("b", Value.int 1), ("a", Value.int 2)]] ["a", "z"]).length)
        (hj2 : j < (project [[("b", Value.int 1), ("a", Value.int 2)]] ["a", "z"]).length),
        ([[("b", Value.int 1), ("a", Value.int 2)]] : Relation)[i]
          = ([[("b", Value.int 1), ("a", Value.int 2)]] : Relation)[j] →
        (project [[("b", Value.int 1), ("a", Value.int 2)]] ["a", "z"])[i]
          = (project [[("b", Value.int 1), ("a", Value.int 2)]] ["a", "z"])[j] :=
  project_field_mask [[("b", Value.int 1), ("a", Value.int 2)]] ["a", "z"]
    (by decide)

/-! ### summarize: the groups dict -/

theorem listPyEq_comm (a b : List Value) : listPyEq a b = listPyEq b a := by
  rw [Bool.eq_iff_iff, listPyEq_iff_norm, listPyEq_iff_norm]
  exact eq_comm

theorem listPyEq_false_symm {a b : List Value} (h : listPyEq a b = false) :
    listPyEq b a = false := by
  rw [listPyEq_comm]
  exact h

theorem addToGroups_map_fst (gs : List (List Value × List Record))
    (key : List Value) (row : Record) :
    (addToGroups gs key row).map Prod.fst
      = if (gs.map Prod.fst).any (fun k => listPyEq k key)
          then gs.map Prod.fst else gs.map Prod.fst ++ [key] := by
  induction gs with
  | nil => simp [addToGroups]
  | cons g rest ih =>
      obtain ⟨k, rows⟩ := g
      by_cases h : listPyEq k key = true
      · simp [addToGroups, h]
      · have hf : listPyEq k key = false := by
          cases hc : listPyEq k key
          · rfl
          · exact absurd hc h
        simp only [addToGroups, hf, Bool.false_eq_true, if_false, List.map_cons,
          List.any_cons, Bool.false_or, ih]
        by_cases hc : (rest.map Prod.fst).any (fun k => listPyEq k key) <;>
          simp [hc]

theorem addToGroups_none (gs : List (List Value × List Record))
    (key : List Value) (row : Record)
    (h : ∀ g ∈ gs, listPyEq g.1 key = false) :
    addToGroups gs key row = gs ++ [(key, [row])] := by
  induction gs with
  | nil => rfl
  | cons g rest ih =>
      obtain ⟨k, rows⟩ := g
      have hk : listPyEq k key = false := h (k, rows) (List.mem_cons_self _ _)
      simp only [addToGroups, hk, Bool.false_eq_true, if_false, List.cons_append,
        List.cons.injEq, true_and]
      exact ih (fun g hg => h g (List.mem_cons_of_mem _ hg))

theorem addToGroups_mem (gs : List (List Value × List Record))
    (key : List Value) (row : Record)
    (hpw : gs.Pairwise (fun a b => listPyEq a.1 b.1 = false))
    (g0 : List Value × List Record) (hg0 : g0 ∈ gs)
    (hmatch : listPyEq g0.1 key = true) :
    addToGroups gs key row
      = gs.map (fun g => if listPyEq g.1 key then (g.1, g.2 ++ [row]) else g) := by
  induction gs with
  | nil => cases hg0
  | cons g rest ih =>
      obtain ⟨k, rows⟩ := g
      by_cases h : listPyEq k key = true
      · -- the head matches; no later group can match
        have hrest : ∀ g' ∈ rest, listPyEq g'.1 key = false := by
          intro g' hg'
          have hne : listPyEq (k, rows).1 g'.1 = false :=
            (List.pairwise_cons.mp hpw).1 g' hg'
          cases hc : listPyEq g'.1 key
          · rfl
          · -- g'.1 ~ key and k ~ key would force k ~ g'.1
            have : listPyEq k g'.1 = true :=
              listPyEq_trans h (listPyEq_symm hc)
            rw [this] at hne
            cases hne
        simp only [addToGroups, h, if_true, List.map_cons]
        congr 1
        have : ∀ g' ∈ rest,
            (if listPyEq g'.1 key then (g'.1, g'.2 ++ [row]) else g') = g' := by
          intro g' hg'
          simp [hrest g' hg']
        rw [List.map_congr_left this, List.map_id']
      · have hf : listPyEq k key = false := by
          cases hc : listPyEq k key
          · rfl
          · exact absurd hc h
        have hg0' : g0 ∈ rest := by
          rcases List.mem_cons.mp hg0 with he | hm
          · rw [he] at hmatch
            rw [hmatch] at hf
            cases hf
          · exact hm
        simp only [addToGroups, hf, Bool.false_eq_true, if_false, List.map_cons,
          List.cons.injEq]
        exact ⟨by simp [hf], ih (List.Pairwise.of_cons hpw) hg0'⟩

theorem groupsOf_foldl_map_fst (G : List String) (rest : List Record) :
    ∀ gs : List (List Value × List Record),
      ((rest.foldl (fun gs row => addToGroups gs (keyOf G row) row) gs).map
        Prod.fst)
      = rest.foldl
          (fun ks row =>
            if ks.any (fun k => listPyEq k (keyOf G row)) then ks
            else ks ++ [keyOf G row])
          (gs.map Prod.fst) := by
  induction rest with
  | nil => intro gs; rfl
  | cons r rest ih =>
      intro gs
      rw [List.foldl_cons, List.foldl_cons, ih, addToGroups_map_fst]

/-- The keys of the groups dict are the distinct grouping keys in first-seen
order. -/
theorem groupsOf_map_fst (G : List String) (R : Relation) :
    (groupsOf G R).map Prod.fst = seenKeys G R :=
  groupsOf_foldl_map_fst G R []

theorem groupsOf_invariant (G : List String) (rest : List Record) :
    ∀ (P : List Record) (gs : List (List Value × List Record)),
      gs.Pairwise (fun a b => listPyEq a.1 b.1 = false) →
      (∀ g ∈ gs, ∃ row, g.1 = keyOf G row) →
      (∀ g ∈ gs, g.2 = P.filter (fun r => listPyEq (keyOf G r) g.1)) →
      (∀ r ∈ P, ∃ g ∈ gs, listPyEq g.1 (keyOf G r) = true) →
      ((rest.foldl (fun gs row => addToGroups gs (keyOf G row) row) gs).Pairwise
          (fun a b => listPyEq a.1 b.1 = false)
        ∧ (∀ g ∈ rest.foldl (fun gs row => addToGroups gs (keyOf G row) row) gs,
            ∃ row, g.1 = keyOf G row)
        ∧ (∀ g ∈ rest.foldl (fun gs row => addToGroups gs (keyOf G row) row) gs,
            g.2 = (P ++ rest).filter (fun r => listPyEq (keyOf G r) g.1))
        ∧ ∀ r ∈ P ++ rest,
            ∃ g ∈ rest.foldl (fun gs row => addToGroups gs (keyOf G row) row) gs,
              listPyEq g.1 (keyOf G r) = true) := by
  induction rest with
  | nil =>
      intro P gs hpw hshape hmem hcov
      simp only [List.foldl_nil, List.append_nil]
      exact ⟨hpw, hshape, hmem, hcov⟩
  | cons r rest ih =>
      intro P gs hpw hshape hmem hcov
      rw [List.foldl_cons]
      by_cases hex : ∃ g0 ∈ gs, listPyEq g0.1 (keyOf G r) = true
      · -- the row joins the unique matching group
        obtain ⟨g0, hg0, hm⟩ := hex
        rw [addToGroups_mem gs (keyOf G r) r hpw g0 hg0 hm]
        have hfst : ∀ g : List Value × List Record,
            ((if listPyEq g.1 (keyOf G r) then (g.1, g.2 ++ [r]) else g)).1
              = g.1 := by
          intro g
          by_cases h : listPyEq g.1 (keyOf G r) = true <;> simp [h]
        have h1 := ih (P ++ [r])
          (gs.map fun g =>
            if listPyEq g.1 (keyOf G r) then (g.1, g.2 ++ [r]) else g)
          ?_ ?_ ?_ ?_
        · rw [List.append_assoc] at h1
          simpa using h1
        · rw [List.pairwise_map]
          refine hpw.imp ?_
          intro a b hab
          rw [hfst, hfst]
          exact hab
        · intro g' hg'
          obtain ⟨g, hg, rfl⟩ := List.mem_map.mp hg'
          rw [hfst]
          exact hshape g hg
        · intro g' hg'
          obtain ⟨g, hg, rfl⟩ := List.mem_map.mp hg'
          rw [List.filter_append]
          by_cases hmatch : listPyEq g.1 (keyOf G r) = true
          · have hr : listPyEq (keyOf G r) g.1 = true := listPyEq_symm hmatch
            simp only [hmatch, if_true, hfst]
            rw [show List.filter (fun x => listPyEq (keyOf G x) g.1) [r] = [r]
                from by simp [hr]]
            rw [hmem g hg]
          · have hmf : listPyEq g.1 (keyOf G r) = false := by
              cases hc : listPyEq g.1 (keyOf G r)
              · rfl
              · exact absurd hc hmatch
            have hr : listPyEq (keyOf G r) g.1 = false := listPyEq_false_symm hmf
            simp only [hmf, Bool.false_eq_true, if_false, hfst]
            rw [show List.filter (fun x => listPyEq (keyOf G x) g.1) [r] = []
                from by simp [hr]]
            rw [List.append_nil]
            exact hmem g hg
        · intro x hx
          rcases List.mem_append.mp hx with hxP | hxr
          · obtain ⟨g, hg, hgx⟩ := hcov x hxP
            refine ⟨(if listPyEq g.1 (keyOf G r) then (g.1, g.2 ++ [r]) else g),
              List.mem_map_of_mem _ hg, ?_⟩
            rw [hfst]
            exact hgx
          · have hxr' : x = r := by simpa using hxr
            rw [hxr']
            refine ⟨(if listPyEq g0.1 (keyOf G r) then (g0.1, g0.2 ++ [r]) else g0),
              List.mem_map_of_mem _ hg0, ?_⟩
            rw [hfst]
            exact hm
      · -- the row opens a new group at the end
        have hall : ∀ g ∈ gs, listPyEq g.1 (keyOf G r) = false := by
          intro g hg
          cases hc : listPyEq g.1 (keyOf G r)
          · rfl
          · exact absurd ⟨g, hg, hc⟩ hex
        rw [addToGroups_none gs _ r hall]
        have h1 := ih (P ++ [r]) (gs ++ [(keyOf G r, [r])]) ?_ ?_ ?_ ?_
        · rw [List.append_assoc] at h1
          simpa using h1
        · rw [List.pairwise_append]
          refine ⟨hpw, by simp, ?_⟩
          intro a ha b hb
          have : b = (keyOf G r, [r]) := by simpa using hb
          rw [this]
          exact hall a ha
        · intro g hg
          rcases List.mem_append.mp hg with hgs | hnew
          · exact hshape g hgs
          · have : g = (keyOf G r, [r]) := by simpa using hnew
            exact ⟨r, by rw [this]⟩
        · intro g hg
          rw [List.filter_append]
          rcases List.mem_append.mp hg with hgs | hnew
          · have hr : listPyEq (keyOf G r) g.1 = false :=
              listPyEq_false_symm (hall g hgs)
            rw [show List.filter (fun x => listPyEq (keyOf G x) g.1) [r] = []
                from by simp [hr]]
            rw [List.append_nil]
            exact hmem g hgs
          · have hgeq : g = (keyOf G r, [r]) := by simpa using hnew
            subst hgeq
            have hP : List.filter (fun x => listPyEq (keyOf G x) (keyOf G r)) P
                = [] := by
              rw [List.filter_eq_nil]
              intro x hxP hmatch
              obtain ⟨g', hg', hgx⟩ := hcov x hxP
              have : listPyEq g'.1 (keyOf G r) = true :=
                listPyEq_trans hgx hmatch
              rw [hall g' hg'] at this
              cases this
            rw [show List.filter
                  (fun x => listPyEq (keyOf G x) (keyOf G r)) [r] = [r]
                from by simp [listPyEq_refl]]
            rw [hP]
            rfl
        · intro x hx
          rcases List.mem_append.mp hx with hxP | hxr
          · obtain ⟨g, hg, hgx⟩ := hcov x hxP
            exact ⟨g, List.mem_append_left _ hg, hgx⟩
          · have hxr' : x = r := by simpa using hxr
            rw [hxr']
            exact ⟨(keyOf G r, [r]), List.mem_append_right _ (by simp),
              listPyEq_refl _⟩

/-- The groups dict of `summarize`: pairwise-distinct keys, every key is the
key of some row, every member list is the filter of the whole relation by its
key, and every row belongs to some group. -/
theorem groupsOf_props (G : List String) (R : Relation) :
    (groupsOf G R).Pairwise (fun a b => listPyEq a.1 b.1 = false)
    ∧ (∀ g ∈ groupsOf G R, ∃ row, g.1 = keyOf G row)
    ∧ (∀ g ∈ groupsOf G R, g.2 = R.filter (fun r => listPyEq (keyOf G r) g.1))
    ∧ ∀ r ∈ R, ∃ g ∈ groupsOf G R, listPyEq g.1 (keyOf G r) = true := by
  have h := groupsOf_invariant G R [] [] (by simp) (by simp) (by simp) (by simp)
  simpa using h

theorem sum_addToGroups (gs : List (List Value × List Record))
    (key : List Value) (row : Record) :
    ((addToGroups gs key row).map (fun g => g.2.length)).sum
      = (gs.map (fun g => g.2.length)).sum + 1 := by
  induction gs with
  | nil => simp [addToGroups]
  | cons g rest ih =>
      obtain ⟨k, rows⟩ := g
      by_cases h : listPyEq k key = true
      · simp only [addToGroups, h, if_true, List.map_cons, List.sum_cons,
          List.length_append, List.length_cons, List.length_nil]
        omega
      · have hf : listPyEq k key = false := by
          cases hc : listPyEq k key
          · rfl
          · exact absurd hc h
        simp only [addToGroups, hf, Bool.false_eq_true, if_false, List.map_cons,
          List.sum_cons, ih]
        omega

theorem sum_groupsOf_foldl (G : List String) (rest : List Record) :
    ∀ gs : List (List Value × List Record),
      (((rest.foldl (fun gs row => addToGroups gs (keyOf G row) row) gs).map
        (fun g => g.2.length)).sum)
      = (gs.map (fun g => g.2.length)).sum + rest.length := by
  induction rest with
  | nil => intro gs; simp
  | cons r rest ih =>
      intro gs
      rw [List.foldl_cons, ih, sum_addToGroups]
      simp
      omega

/-- Summarize partitions the input: member-list lengths sum to the relation
length. -/
theorem sum_groupsOf (G : List String) (R : Relation) :
    ((groupsOf G R).map (fun g => g.2.length)).sum = R.length := by
  have h := sum_groupsOf_foldl G R []
  simpa using h

/-! ### summarize: the output records -/

theorem mkSummary_eq_foldIns (G : List String)
    (A : List (String × (List Record → Value)))
    (k : List Value) (rows : List Record) :
    mkSummary G A k rows
      = foldIns Prod.fst (fun p : String × (List Record → Value) => p.2 rows)
          (foldIns Prod.fst Prod.snd [] (G.zip k)) A := rfl

theorem getV_mkSummary_aggregate (G : List String)
    (A : List (String × (List Record → Value)))
    (k : List Value) (rows : List Record)
    (hA : (A.map Prod.fst).Nodup)
    (a : String × (List Record → Value)) (ha : a ∈ A) :
    Record.getV (mkSummary G A k rows) a.1 = a.2 rows := by
  rw [mkSummary_eq_foldIns]
  exact getV_foldIns_self Prod.fst
    (fun p : String × (List Record → Value) => p.2 rows) A
    (fun x hx y hy e => by rw [List.inj_on_of_nodup_map hA hx hy e]) _ a ha

theorem getV_mkSummary_group (G : List String)
    (A : List (String × (List Record → Value)))
    (row0 : Record) (rows : List Record)
    (hGA : ∀ n ∈ A.map Prod.fst, n ∉ G)
    (q : String × Value) (hq : q ∈ G.zip (keyOf G row0)) :
    Record.getV (mkSummary G A (keyOf G row0) rows) q.1 = q.2 := by
  rw [mkSummary_eq_foldIns]
  have hq1 : q.1 ∈ G := (List.mem_zip hq).1
  rw [getV_foldIns_not_mem Prod.fst
    (fun p : String × (List Record → Value) => p.2 rows) A _ q.1
    (fun x hx e => hGA x.1 (List.mem_map_of_mem Prod.fst hx) (e ▸ hq1))]
  have hzip : ∀ p ∈ G.zip (keyOf G row0), p.2 = Record.getV row0 p.1 := by
    intro p hp
    exact (mem_zip_map_self G (Record.getV row0) p hp).1
  have hfun : ∀ x ∈ G.zip (keyOf G row0), ∀ y ∈ G.zip (keyOf G row0),
      x.1 = y.1 → x.2 = y.2 := by
    intro x hx y hy e
    rw [hzip x hx, hzip y hy, e]
  have := getV_foldIns_self Prod.fst Prod.snd (G.zip (keyOf G row0)) hfun [] q hq
  exact this

theorem length_mkSummary_lt (G : List String)
    (A : List (String × (List Record → Value)))
    (row0 : Record) (rows : List Record)
    (a : String × (List Record → Value)) (ha : a ∈ A) (hcol : a.1 ∈ G) :
    (mkSummary G A (keyOf G row0) rows).length < G.length + A.length := by
  rw [mkSummary_eq_foldIns]
  obtain ⟨A1, A2, rfl⟩ := List.append_of_mem ha
  have hzlen : (G.zip (keyOf G row0)).length = G.length := by
    simp [keyOf]
  -- the base summary has at most one field per group field, and holds a.1
  have hbase_le : (foldIns Prod.fst Prod.snd [] (G.zip (keyOf G row0))).length
      ≤ G.length := by
    have := length_foldIns_le (α := String × Value) Prod.fst Prod.snd
      (G.zip (keyOf G row0)) []
    simpa [hzlen] using this
  have hbase_mem : a.1 ∈ Record.keys
      (foldIns Prod.fst Prod.snd [] (G.zip (keyOf G row0))) := by
    have hfst : (G.zip (keyOf G row0)).map Prod.fst = G :=
      List.map_fst_zip G (keyOf G row0) (by simp [keyOf])
    have : a.1 ∈ (G.zip (keyOf G row0)).map Prod.fst := by rw [hfst]; exact hcol
    obtain ⟨x, hx, hx1⟩ := List.mem_map.mp this
    have := mem_keys_foldIns_self (α := String × Value) Prod.fst Prod.snd
      (G.zip (keyOf G row0)) [] x hx
    rw [hx1] at this
    exact this
  rw [foldIns_append, foldIns_cons]
  set M := foldIns Prod.fst (fun p : String × (List Record → Value) => p.2 rows)
    (foldIns Prod.fst Prod.snd [] (G.zip (keyOf G row0))) A1 with hM
  have hM_le : M.length
      ≤ (foldIns Prod.fst Prod.snd [] (G.zip (keyOf G row0))).length
        + A1.length :=
    length_foldIns_le _ _ A1 _
  have hM_mem : a.1 ∈ Record.keys M :=
    mem_keys_foldIns_of_mem _ _ A1 _ a.1 hbase_mem
  have hins : (Record.insert M a.1 (a.2 rows)).length = M.length :=
    Record.length_insert_of_mem M a.1 (a.2 rows) hM_mem
  have hfin : (foldIns Prod.fst (fun p : String × (List Record → Value) => p.2 rows)
      (Record.insert M a.1 (a.2 rows)) A2).length
      ≤ (Record.insert M a.1 (a.2 rows)).length + A2.length :=
    length_foldIns_le _ _ A2 _
  rw [hins] at hfin
  have hAlen : (A1 ++ a :: A2).length = A1.length + A2.length + 1 := by
    simp
    omega
  omega

/-- Counterexample to C3: when an aggregate output name ("g") equals a group
field, the emitted record holds the aggregate's value (the member count 1),
not the group-key value (0), so the output record does not contain the
group-field values. -/
theorem summarize_group_value_cex :
    summarize [[("g", Value.int 0)]] ["g"]
        [("g", fun rows : List Record => Value.int (rows.length : Int))]
      = [[("g", Value.int 1)]]
    ∧ Record.getV [("g", Value.int 1)] "g" ≠ Value.int 0 := by
  decide

/-- C3 (amended): for every relation R, group-field list G and aggregate
mapping A whose output names avoid the group fields, summarize(R, G, A) emits
exactly one output record per distinct grouping-key tuple over R (missing
group fields resolve to null and participate in equality normally), in
first-seen order of the grouping key; the member-list lengths over all groups
sum to len(R); and each output record contains the group-field values plus,
for each aggregate name, its reducer applied to the full member list of that
group.  (When an aggregate name equals a group field, the aggregate value
overwrites the group value — see the collision theorem.) -/
theorem summarize_correct (R : Relation) (G : List String)
    (A : List (String × (List Record → Value)))
    (hA : (A.map Prod.fst).Nodup) (hGA : ∀ n ∈ A.map Prod.fst, n ∉ G) :
    (summarize R G A).length = (seenKeys G R).length
    ∧ (groupsOf G R).map Prod.fst = seenKeys G R
    ∧ ((groupsOf G R).map (fun g => g.2.length)).sum = R.length
    ∧ ∀ p ∈ (groupsOf G R).zip (summarize R G A),
        p.1.2 = R.filter (fun r => listPyEq (keyOf G r) p.1.1)
        ∧ (∀ q ∈ G.zip p.1.1, Record.getV p.2 q.1 = q.2)
        ∧ (∀ a ∈ A, Record.getV p.2 a.1 = a.2 p.1.2) := by
  obtain ⟨hpw, hshape, hmem, hcov⟩ := groupsOf_props G R
  refine ⟨?_, groupsOf_map_fst G R, sum_groupsOf G R, ?_⟩
  · rw [← groupsOf_map_fst G R]
    simp [summarize]
  · intro p hp
    obtain ⟨hval, hpmem⟩ :=
      mem_zip_map_self (groupsOf G R) (fun g => mkSummary G A g.1 g.2) p hp
    obtain ⟨row0, hk⟩ := hshape p.1 hpmem
    refine ⟨hmem p.1 hpmem, ?_, ?_⟩
    · intro q hq
      rw [hval, hk]
      exact getV_mkSummary_group G A row0 p.1.2 hGA q (hk ▸ hq)
    · intro a ha
      rw [hval]
      exact getV_mkSummary_aggregate G A p.1.1 p.1.2 hA a ha

/-- Witness for C3 at the spec's offers scenario: two rows sharing a key and
one distinct, counted per group. -/
theorem summarize_correct_witness :
    (summarize [[("addr", Value.str "a")], [("addr", Value.str "a")],
        [("addr", Value.str "c")]] ["addr"]
        [("n", fun rows : List Record => Value.int (rows.length : Int))]).length
      = (seenKeys ["addr"] [[("addr", Value.str "a")], [("addr", Value.str "a")],
          [("addr", Value.str "c")]]).length
    ∧ (groupsOf ["addr"] [[("addr", Value.str "a")], [("addr", Value.str "a")],
          [("addr", Value.str "c")]]).map Prod.fst
      = seenKeys ["addr"] [[("addr", Value.str "a")], [("addr", Value.str "a")],
          [("addr", Value.str "c")]]
    ∧ ((groupsOf ["addr"] [[("addr", Value.str "a")], [("addr", Value.str "a")],
          [("addr", Value.str "c")]]).map (fun g => g.2.length)).sum
      = ([[("addr", Value.str "a")], [("addr", Value.str "a")],
          [("addr", Value.str "c")]] : Relation).length
    ∧ ∀ p ∈ (groupsOf ["addr"] [[("addr", Value.str "a")], [("addr", Value.str "a")],
          [("addr", Value.str "c")]]).zip
          (summarize [[("addr", Value.str "a")], [("addr", Value.str "a")],
            [("addr", Value.str "c")]] ["addr"]
            [("n", fun rows : List Record => Value.int (rows.length : Int))]),
        p.1.2 = ([[("addr", Value.str "a")], [("addr", Value.str "a")],
            [("addr", Value.str "c")]] : Relation).filter
            (fun r => listPyEq (keyOf ["addr"] r) p.1.1)
        ∧ (∀ q ∈ (["addr"] : List String).zip p.1.1,
            Record.getV p.2 q.1 = q.2)
        ∧ (∀ a ∈ [("n", fun rows : List Record => Value.int (rows.length : Int))],
            Record.getV p.2 a.1 = a.2 p.1.2) :=
  summarize_correct [[("addr", Value.str "a")], [("addr", Value.str "a")],
      [("addr", Value.str "c")]] ["addr"]
    [("n", fun rows : List Record => Value.int (rows.length : Int))]
    (by simp) (by simp)

/-- C10: when an aggregate output name equals a group field, the emitted
record holds the aggregate's computed value under that name (the aggregate
overwrites the group field), and the output record has fewer than
len(group_fields) + len(aggregates) fields. -/
theorem summarize_aggregate_overwrites (R : Relation) (G : List String)
    (A : List (String × (List Record → Value)))
    (a : String × (List Record → Value))
    (hA : (A.map Prod.fst).Nodup) (ha : a ∈ A) (hcol : a.1 ∈ G) :
    ∀ p ∈ (groupsOf G R).zip (summarize R G A),
      Record.getV p.2 a.1 = a.2 p.1.2
      ∧ p.2.length < G.length + A.length := by
  obtain ⟨hpw, hshape, hmem, hcov⟩ := groupsOf_props G R
  intro p hp
  obtain ⟨hval, hpmem⟩ :=
    mem_zip_map_self (groupsOf G R) (fun g => mkSummary G A g.1 g.2) p hp
  obtain ⟨row0, hk⟩ := hshape p.1 hpmem
  rw [hval]
  refine ⟨getV_mkSummary_aggregate G A p.1.1 p.1.2 hA a ha, ?_⟩
  rw [hk]
  exact length_mkSummary_lt G A row0 p.1.2 a ha hcol

/-- Witness for C10 at a concrete two-row relation whose aggregate reuses the
group-field name: the single group's output record carries the count 2
instead of the key value 0 and has one field, fewer than 1 + 1. -/
theorem summarize_aggregate_overwrites_witness :
    Record.getV [("g", Value.int 2)] "g"
      = Value.int (([[("g", Value.int 0)], [("g", Value.int 0)]] : List Record).length : Int)
    ∧ ([("g", Value.int 2)] : Record).length < 2 := by
  have h := summarize_aggregate_overwrites
    [[("g", Value.int 0)], [("g", Value.int 0)]]
    ["g"] [("g", fun rows : List Record => Value.int (rows.length : Int))]
    ("g", fun rows : List Record => Value.int (rows.length : Int))
    (by simp) (List.mem_singleton_self _) (by simp)
    (([Value.int 0], [[("g", Value.int 0)], [("g", Value.int 0)]]),
      [("g", Value.int 2)])
    (by decide)
  exact ⟨h.1, h.2⟩

end RelationalGPT
